import Mathlib

/-!
Verification of the non-Markovianity estimation pipeline of this repository
(`post_proc_funcs.py`, `non_markovianity_test.py`).

Complex matrices are modelled as `Matrix (Fin d) (Fin d) ℂ`; numpy's `@` is
matrix multiplication, `np.linalg.pinv` is the Moore–Penrose pseudo-inverse
(modelled through its four defining Penrose equations, which determine it
uniquely), `np.linalg.norm (·, ord=1)` on a 2-D array is the maximum absolute
column sum, and `scipy.linalg.sqrtm` on a positive-semidefinite Hermitian
matrix is the (unique) positive-semidefinite square root.
-/

namespace NonMarkov

open Matrix
open scoped ComplexOrder

variable {d m n : ℕ}

/-- The four Penrose equations: `B` is the Moore–Penrose pseudo-inverse of `A`.
For every complex matrix `A` there is at most one such `B`. -/
def IsPenroseInv (A B : Matrix (Fin d) (Fin d) ℂ) : Prop :=
  A * B * A = A ∧ B * A * B = B ∧ (A * B)ᴴ = A * B ∧ (B * A)ᴴ = B * A

/-- Uniqueness of the Moore–Penrose pseudo-inverse. -/
theorem IsPenroseInv.unique {A B C : Matrix (Fin d) (Fin d) ℂ}
    (hB : IsPenroseInv A B) (hC : IsPenroseInv A C) : B = C := by
  obtain ⟨hB1, hB2, hB3, hB4⟩ := hB
  obtain ⟨hC1, hC2, hC3, hC4⟩ := hC
  have e1 : B = C * A * B := by
    calc B = B * A * B := hB2.symm
    _ = (B * A)ᴴ * B := by rw [hB4]
    _ = Aᴴ * Bᴴ * B := by rw [conjTranspose_mul]
    _ = (A * C * A)ᴴ * Bᴴ * B := by rw [hC1]
    _ = (C * A)ᴴ * ((B * A)ᴴ * B) := by
        rw [conjTranspose_mul (A * C) A, conjTranspose_mul A C, conjTranspose_mul B A,
          conjTranspose_mul C A]
        simp only [mul_assoc]
    _ = C * A * ((B * A)ᴴ * B) := by rw [hC4]
    _ = C * A * (B * A * B) := by rw [hB4]
    _ = C * A * B := by rw [hB2]
  have e2 : C = C * A * B := by
    calc C = C * A * C := hC2.symm
    _ = C * (A * C)ᴴ := by rw [hC3, mul_assoc]
    _ = C * (Cᴴ * Aᴴ) := by rw [conjTranspose_mul]
    _ = C * (Cᴴ * (A * B * A)ᴴ) := by rw [hB1]
    _ = C * ((A * C)ᴴ * (A * B)ᴴ) := by
        rw [conjTranspose_mul (A * B) A, conjTranspose_mul A B, conjTranspose_mul A C]
        simp only [mul_assoc]
    _ = C * (A * C * (A * B)) := by rw [hC3, hB3]
    _ = C * A * B := by
        rw [← mul_assoc C (A * C) (A * B), ← mul_assoc C A C, hC2, ← mul_assoc]
  exact e1.trans e2.symm

/-- `np.linalg.pinv`: the Moore–Penrose pseudo-inverse, characterised by the
Penrose equations (numerically, numpy computes it by SVD). -/
noncomputable def pinv (A : Matrix (Fin d) (Fin d) ℂ) : Matrix (Fin d) (Fin d) ℂ :=
  letI := Classical.propDecidable (∃ B, IsPenroseInv A B)
  if h : ∃ B, IsPenroseInv A B then h.choose else 0

theorem pinv_eq {A B : Matrix (Fin d) (Fin d) ℂ} (h : IsPenroseInv A B) : pinv A = B := by
  have hex : ∃ B, IsPenroseInv A B := ⟨B, h⟩
  rw [pinv, dif_pos hex]
  exact hex.choose_spec.unique h

/-- For an invertible matrix (with explicit two-sided inverse `B`),
the Moore–Penrose pseudo-inverse is that inverse. -/
theorem pinv_of_mul_eq_one {A B : Matrix (Fin d) (Fin d) ℂ}
    (h1 : A * B = 1) (h2 : B * A = 1) : pinv A = B :=
  pinv_eq ⟨by rw [h1, one_mul], by rw [h2, one_mul],
    by rw [h1]; rw [conjTranspose_one], by rw [h2]; rw [conjTranspose_one]⟩

/-- The inner loop of `compute_intmdt_maps` (`post_proc_funcs.py`, lines 48–50):
`curr_applied_inv = np.identity(dim)` followed by
`for j in range(i): curr_applied_inv = curr_applied_inv @ np.linalg.pinv(superop_ls[j])`. -/
noncomputable def curr_applied_inv (superop_ls : List (Matrix (Fin d) (Fin d) ℂ)) (i : ℕ) :
    Matrix (Fin d) (Fin d) ℂ :=
  (List.range i).foldl (fun acc j => acc * pinv (superop_ls.getD j 0)) 1

/-- `compute_intmdt_maps` (`post_proc_funcs.py`, lines 32–52): allocates a list of
the same length as `superop_ls`, sets entry `0` to `superop_ls[0]` and entry
`i ≥ 1` to `superop_ls[i] @ curr_applied_inv`. -/
noncomputable def compute_intmdt_maps (superop_ls : List (Matrix (Fin d) (Fin d) ℂ)) :
    List (Matrix (Fin d) (Fin d) ℂ) :=
  (List.range superop_ls.length).map fun i =>
    if i = 0 then superop_ls.getD 0 0
    else superop_ls.getD i 0 * curr_applied_inv superop_ls i

theorem curr_applied_inv_eq_prod (ls : List (Matrix (Fin d) (Fin d) ℂ)) (i : ℕ) :
    curr_applied_inv ls i = ((List.range i).map fun j => pinv (ls.getD j 0)).prod := by
  rw [curr_applied_inv, List.prod_eq_foldl, List.foldl_map]

theorem compute_intmdt_maps_length (ls : List (Matrix (Fin d) (Fin d) ℂ)) :
    (compute_intmdt_maps ls).length = ls.length := by
  simp [compute_intmdt_maps]

theorem compute_intmdt_maps_getD (ls : List (Matrix (Fin d) (Fin d) ℂ)) (i : ℕ)
    (hi : i < ls.length) :
    (compute_intmdt_maps ls).getD i 0 =
      if i = 0 then ls.getD 0 0 else ls.getD i 0 * curr_applied_inv ls i := by
  simp [compute_intmdt_maps, List.getD_eq_getElem?_getD, List.getElem?_range, hi]

/-! Concrete invertible 4×4 test matrices (one-qubit superoperator dimension
`4 = 4^1`), used as inputs for witnesses and counterexamples. -/

def cS0 : Matrix (Fin 4) (Fin 4) ℂ :=
  !![1, 1, 0, 0; 0, 1, 0, 0; 0, 0, 1, 0; 0, 0, 0, 1]

def cS0inv : Matrix (Fin 4) (Fin 4) ℂ :=
  !![1, -1, 0, 0; 0, 1, 0, 0; 0, 0, 1, 0; 0, 0, 0, 1]

def cS1 : Matrix (Fin 4) (Fin 4) ℂ :=
  !![2, 0, 0, 0; 0, 1, 0, 0; 0, 0, 1, 0; 0, 0, 0, 1]

noncomputable def cS1inv : Matrix (Fin 4) (Fin 4) ℂ :=
  !![(1 : ℂ)/2, 0, 0, 0; 0, 1, 0, 0; 0, 0, 1, 0; 0, 0, 0, 1]

lemma cS0_mul_inv : cS0 * cS0inv = 1 := by
  ext i j
  fin_cases i <;> fin_cases j <;>
    simp [cS0, cS0inv, Matrix.mul_apply, Fin.sum_univ_four, Matrix.one_apply,
      Matrix.vecHead, Matrix.vecTail]

lemma cS0_inv_mul : cS0inv * cS0 = 1 := by
  ext i j
  fin_cases i <;> fin_cases j <;>
    simp [cS0, cS0inv, Matrix.mul_apply, Fin.sum_univ_four, Matrix.one_apply,
      Matrix.vecHead, Matrix.vecTail]

lemma cS1_mul_inv : cS1 * cS1inv = 1 := by
  ext i j
  fin_cases i <;> fin_cases j <;>
    simp [cS1, cS1inv, Matrix.mul_apply, Fin.sum_univ_four, Matrix.one_apply,
      Matrix.vecHead, Matrix.vecTail]

lemma cS1_inv_mul : cS1inv * cS1 = 1 := by
  ext i j
  fin_cases i <;> fin_cases j <;>
    simp [cS1, cS1inv, Matrix.mul_apply, Fin.sum_univ_four, Matrix.one_apply,
      Matrix.vecHead, Matrix.vecTail]

lemma pinv_cS0 : pinv cS0 = cS0inv := pinv_of_mul_eq_one cS0_mul_inv cS0_inv_mul

lemma pinv_cS1 : pinv cS1 = cS1inv := pinv_of_mul_eq_one cS1_mul_inv cS1_inv_mul

/-- C1 (amended): for every non-empty sequence `S_0..S_{n-1}`, `compute_intmdt_maps`
returns a sequence of the same length with `M_0 = S_0` and, for `i ≥ 1`,
`M_i = S_i · (S_0⁻¹ · S_1⁻¹ · … · S_{i-1}⁻¹)`: the Moore–Penrose pseudo-inverses of
the prior cumulative maps are multiplied in increasing index order from the left
(so `S_{i-1}⁻¹`, not `S_0⁻¹`, is the factor applied first to a state). -/
theorem C1_intmdt_maps_structure (ls : List (Matrix (Fin d) (Fin d) ℂ)) (hls : ls ≠ []) :
    (compute_intmdt_maps ls).length = ls.length ∧
    (compute_intmdt_maps ls).getD 0 0 = ls.getD 0 0 ∧
    ∀ i, 1 ≤ i → i < ls.length →
      (compute_intmdt_maps ls).getD i 0 =
        ls.getD i 0 * ((List.range i).map fun j => pinv (ls.getD j 0)).prod := by
  refine ⟨compute_intmdt_maps_length ls, ?_, ?_⟩
  · cases ls with
    | nil => exact absurd rfl hls
    | cons a t =>
        rw [compute_intmdt_maps_getD _ 0 (by simp)]
        simp
  · intro i h1 hi
    rw [compute_intmdt_maps_getD _ i hi, if_neg (by omega), curr_applied_inv_eq_prod]

/-- C1 witness: the structure theorem applied to the concrete input `[S0, S1]`. -/
theorem C1_intmdt_maps_structure_witness :
    (([cS0, cS1] : List (Matrix (Fin 4) (Fin 4) ℂ)) ≠ []) ∧
    ((compute_intmdt_maps [cS0, cS1]).length = ([cS0, cS1] : List _).length ∧
     (compute_intmdt_maps [cS0, cS1]).getD 0 0 = ([cS0, cS1] : List _).getD 0 0 ∧
     ∀ i, 1 ≤ i → i < ([cS0, cS1] : List _).length →
       (compute_intmdt_maps [cS0, cS1]).getD i 0 =
         ([cS0, cS1] : List _).getD i 0 *
           ((List.range i).map fun j => pinv (([cS0, cS1] : List _).getD j 0)).prod) :=
  ⟨by simp, C1_intmdt_maps_structure [cS0, cS1] (by simp)⟩

/-- C1 counterexample: with input `[S0, S1, 1]` (`S0`, `S1` invertible and
non-commuting), the computed `M_2` differs from the claim's formula
`S_2 · (S_1⁻¹ · S_0⁻¹)`: the code multiplies the pseudo-inverses in the
opposite (increasing-index) order. -/
theorem C1_counterexample :
    (compute_intmdt_maps [cS0, cS1, (1 : Matrix (Fin 4) (Fin 4) ℂ)]).getD 2 0 ≠
      ([cS0, cS1, (1 : Matrix (Fin 4) (Fin 4) ℂ)] : List _).getD 2 0 *
        (pinv cS1 * pinv cS0) := by
  have hlhs : (compute_intmdt_maps [cS0, cS1, (1 : Matrix (Fin 4) (Fin 4) ℂ)]).getD 2 0 =
      cS0inv * cS1inv := by
    rw [compute_intmdt_maps_getD _ 2 (by simp), if_neg (by omega), curr_applied_inv_eq_prod]
    simp [List.range_succ, pinv_cS0, pinv_cS1]
  rw [hlhs, pinv_cS0, pinv_cS1]
  intro h
  have h01 : (cS0inv * cS1inv) 0 1 = (([cS0, cS1, (1 : Matrix (Fin 4) (Fin 4) ℂ)] :
      List _).getD 2 0 * (cS1inv * cS0inv)) 0 1 := by rw [h]
  simp [cS0inv, cS1inv, Matrix.mul_apply, Fin.sum_univ_four,
    Matrix.vecHead, Matrix.vecTail] at h01

/-- C2 (amended): for a constant input sequence `S_0 = … = S_{n-1} = S` with `S`
invertible (two-sided inverse `B`), the element `M_i` returned by
`compute_intmdt_maps` for `i ≥ 1` equals `S · (S⁻¹)^i` — in particular `M_1` is
the identity, not `S`. -/
theorem C2_constant_sequence (nn : ℕ) (S B : Matrix (Fin d) (Fin d) ℂ)
    (h1 : S * B = 1) (h2 : B * S = 1) :
    ∀ i, 1 ≤ i → i < nn →
      (compute_intmdt_maps (List.replicate nn S)).getD i 0 = S * B ^ i := by
  intro i hi1 hin
  have hgd : ∀ j, j < nn → (List.replicate nn S).getD j 0 = S := by
    intro j hj
    rw [List.getD_eq_getElem?_getD, List.getElem?_replicate, if_pos hj]
    rfl
  rw [compute_intmdt_maps_getD _ i (by simpa using hin), if_neg (by omega),
    curr_applied_inv_eq_prod, hgd i hin]
  congr 1
  have hmap : ((List.range i).map fun j => pinv ((List.replicate nn S).getD j 0)) =
      (List.range i).map fun _ => B := by
    refine List.map_congr_left fun j hj => ?_
    rw [hgd j (lt_of_lt_of_le (List.mem_range.mp hj) (le_of_lt hin)),
      pinv_of_mul_eq_one h1 h2]
  rw [hmap, List.map_const', List.length_range, List.prod_replicate]

/-- C2 witness: the amended theorem applied at `S = cS1`, `n = 2`, `i = 1`. -/
theorem C2_constant_sequence_witness :
    (cS1 * cS1inv = 1) ∧ (cS1inv * cS1 = 1) ∧ (1 ≤ 1) ∧ (1 < 2) ∧
    (compute_intmdt_maps (List.replicate 2 cS1)).getD 1 0 = cS1 * cS1inv ^ 1 :=
  ⟨cS1_mul_inv, cS1_inv_mul, le_refl 1, by norm_num,
    C2_constant_sequence 2 cS1 cS1inv cS1_mul_inv cS1_inv_mul 1 (le_refl 1) (by norm_num)⟩

/-- C2 counterexample: for the constant sequence `[S, S]` with the invertible
superoperator `S = cS1`, the computed `M_1` is the identity, which differs
from `S` as the claim states. -/
theorem C2_counterexample :
    (compute_intmdt_maps (List.replicate 2 cS1)).getD 1 0 ≠ cS1 := by
  have hlhs : (compute_intmdt_maps (List.replicate 2 cS1)).getD 1 0 = cS1 * cS1inv := by
    rw [compute_intmdt_maps_getD _ 1 (by simp), if_neg (by omega), curr_applied_inv_eq_prod]
    simp [List.range_succ, pinv_cS1]
  rw [hlhs, cS1_mul_inv]
  intro h
  have h00 : (1 : Matrix (Fin 4) (Fin 4) ℂ) 0 0 = cS1 0 0 := by rw [h]
  simp [cS1, Matrix.one_apply, Matrix.vecHead, Matrix.vecTail] at h00

/-! Norms: the code's `np.linalg.norm(·, ord=1)` (maximum absolute column sum)
and the spec's nuclear/trace norm, for claim C3. -/

/-- `np.linalg.norm(A, ord=1)` for a 2-D array: the maximum absolute column sum
(the induced 1-norm). numpy raises on an empty axis; this model returns `0`
then, a corner no caller reaches. -/
noncomputable def npNormOne (A : Matrix (Fin m) (Fin n) ℂ) : ℝ :=
  ((Finset.univ.sup fun j : Fin n => ∑ i, ‖A i j‖₊ : NNReal) : ℝ)

/-- `trace_distance` (`non_markovianity_test.py`, lines 94–97):
`0.5 * np.linalg.norm(rho1 - rho2, ord=1)`. -/
noncomputable def trace_distance (rho1 rho2 : Matrix (Fin m) (Fin n) ℂ) : ℝ :=
  0.5 * npNormOne (rho1 - rho2)

/-- Modelled from the spec: the trace-class/nuclear norm `‖A‖₁` — the sum of the
singular values of `A` — computed as the trace of the positive-semidefinite
square root of `AᴴA`. The repository contains no implementation of this norm;
claim C3 asserts the code's `trace_distance` equals half of it. -/
noncomputable def nuclearNorm (A : Matrix (Fin n) (Fin n) ℂ) : ℂ :=
  (posSemidef_conjTranspose_mul_self A).sqrt.trace

lemma diff_c3 : (!![1, 0; 0, 0] : Matrix (Fin 2) (Fin 2) ℂ) - !![0, 0; 0, 1] =
    !![1, 0; 0, -1] := by
  ext i j
  fin_cases i <;> fin_cases j <;> simp

lemma npNormOne_diff_c3 : npNormOne (!![1, 0; 0, -1] : Matrix (Fin 2) (Fin 2) ℂ) = 1 := by
  have hf : (fun j : Fin 2 => ∑ i, ‖(!![1, 0; 0, -1] : Matrix (Fin 2) (Fin 2) ℂ) i j‖₊) =
      fun _ => (1 : NNReal) := by
    funext j
    fin_cases j <;> simp [Fin.sum_univ_two]
  rw [npNormOne, hf, Finset.sup_const ⟨0, Finset.mem_univ 0⟩]
  simp

lemma nuclearNorm_diff_c3 : nuclearNorm (!![1, 0; 0, -1] : Matrix (Fin 2) (Fin 2) ℂ) = 2 := by
  have h1 : (!![1, 0; 0, -1] : Matrix (Fin 2) (Fin 2) ℂ)ᴴ * !![1, 0; 0, -1] = 1 := by
    ext i j
    fin_cases i <;> fin_cases j <;>
      simp [conjTranspose_apply, Matrix.mul_apply, Fin.sum_univ_two, Matrix.one_apply]
  have hsqrt : (posSemidef_conjTranspose_mul_self
      (!![1, 0; 0, -1] : Matrix (Fin 2) (Fin 2) ℂ)).sqrt = 1 := by
    refine (Matrix.PosSemidef.one.eq_sqrt_of_sq_eq
      (posSemidef_conjTranspose_mul_self _) ?_).symm
    rw [one_pow]
    exact h1.symm
  rw [nuclearNorm, hsqrt, trace_one]
  simp

/-- C3: at the density matrices `ρ₁ = |0⟩⟨0|` and `ρ₂ = |1⟩⟨1|` the code's
`trace_distance` returns `1/2` (it uses numpy's induced 1-norm, the maximum
absolute column sum), while half the nuclear norm of `ρ₁ − ρ₂` — the value the
claim says it returns — is `1`. -/
theorem C3_trace_distance_not_nuclear :
    trace_distance (!![1, 0; 0, 0] : Matrix (Fin 2) (Fin 2) ℂ) !![0, 0; 0, 1] = 1 / 2 ∧
    (1 / 2 : ℂ) * nuclearNorm ((!![1, 0; 0, 0] : Matrix (Fin 2) (Fin 2) ℂ) - !![0, 0; 0, 1]) =
      1 ∧
    ((trace_distance (!![1, 0; 0, 0] : Matrix (Fin 2) (Fin 2) ℂ) !![0, 0; 0, 1] : ℝ) : ℂ) ≠
      (1 / 2 : ℂ) *
        nuclearNorm ((!![1, 0; 0, 0] : Matrix (Fin 2) (Fin 2) ℂ) - !![0, 0; 0, 1]) := by
  have h1 : trace_distance (!![1, 0; 0, 0] : Matrix (Fin 2) (Fin 2) ℂ) !![0, 0; 0, 1] =
      1 / 2 := by
    rw [trace_distance, diff_c3, npNormOne_diff_c3]
    norm_num
  have h2 : (1 / 2 : ℂ) *
      nuclearNorm ((!![1, 0; 0, 0] : Matrix (Fin 2) (Fin 2) ℂ) - !![0, 0; 0, 1]) = 1 := by
    rw [diff_c3, nuclearNorm_diff_c3]
    norm_num
  refine ⟨h1, h2, ?_⟩
  rw [h1, h2]
  norm_num

/-! Claim C4: `compute_Drhp` on identity superoperators. -/

lemma mul_add_lt {D x y : ℕ} (hx : x < D) (hy : y < D) : x * D + y < D * D :=
  calc x * D + y < x * D + D := by omega
  _ = (x + 1) * D := by ring
  _ ≤ D * D := Nat.mul_le_mul_right D hx

/-- Qiskit's `Choi(SuperOp)` conversion (external library, modelled from its
reshuffle with the column-stacking convention): the Choi matrix of the
superoperator `S` on a `D`-dimensional system is
`Λ[r, c] = S[(c mod D)·D + (r mod D), (c div D)·D + (r div D)]`.
For the claims below only identity superoperators are converted, for which
every reshuffle convention yields the same matrix up to transposition and
hence the same column-sum and singular-value norms. -/
def choiOfSuperop (D : ℕ) (S : Matrix (Fin (D * D)) (Fin (D * D)) ℂ) :
    Matrix (Fin (D * D)) (Fin (D * D)) ℂ :=
  Matrix.of fun r c =>
    have hD : 0 < D := by
      rcases Nat.eq_zero_or_pos D with h | h
      · exact absurd r.isLt (by simp [h])
      · exact h
    S ⟨(c.val % D) * D + r.val % D, mul_add_lt (Nat.mod_lt _ hD) (Nat.mod_lt _ hD)⟩
      ⟨(c.val / D) * D + r.val / D,
        mul_add_lt ((Nat.div_lt_iff_lt_mul hD).mpr c.isLt)
          ((Nat.div_lt_iff_lt_mul hD).mpr r.isLt)⟩

/-- `compute_Drhp` (`post_proc_funcs.py`, lines 55–69): for each intermediate map,
`gt` collects `(np.linalg.norm(Choi(map), ord=1) - 1) / base_circ_time`; then
`Nrhp = sum(gt)` and `Drhp = Nrhp / (1 + Nrhp)`. `D = 2^q` is the Hilbert-space
dimension, so superoperators are `D²×D²`. -/
noncomputable def compute_Drhp (D : ℕ)
    (intmdt_map_ls : List (Matrix (Fin (D * D)) (Fin (D * D)) ℂ))
    (base_circ_time : ℝ) : ℝ :=
  let gt := intmdt_map_ls.map fun mp => (npNormOne (choiOfSuperop D mp) - 1) / base_circ_time
  let Nrhp := gt.sum
  Nrhp / (1 + Nrhp)

lemma choi_id_eq : choiOfSuperop 2 (1 : Matrix (Fin (2 * 2)) (Fin (2 * 2)) ℂ) =
    !![1, 0, 0, 1; 0, 0, 0, 0; 0, 0, 0, 0; 1, 0, 0, 1] := by
  ext i j
  fin_cases i <;> fin_cases j <;>
    simp [choiOfSuperop, Matrix.one_apply, Fin.ext_iff, Matrix.vecHead, Matrix.vecTail] <;>
    decide

lemma sup_univ_fin4 {α : Type} [SemilatticeSup α] [OrderBot α] (f : Fin 4 → α) :
    Finset.univ.sup f = f 0 ⊔ (f 1 ⊔ (f 2 ⊔ f 3)) := by
  have huniv : (Finset.univ : Finset (Fin 4)) = {0, 1, 2, 3} := by decide
  rw [huniv]
  simp [Finset.sup_insert, Finset.sup_singleton]

lemma npNormOne_choi_id :
    npNormOne (!![1, 0, 0, 1; 0, 0, 0, 0; 0, 0, 0, 0; 1, 0, 0, 1] :
      Matrix (Fin 4) (Fin 4) ℂ) = 2 := by
  rw [npNormOne, sup_univ_fin4]
  simp [Fin.sum_univ_four, Matrix.vecHead, Matrix.vecTail]
  norm_num

/-- C4: `compute_Drhp` on three identity superoperators (one qubit, `D = 2`) with
`base_circ_time = 90` returns `1/31`, not `0`: qiskit's (unnormalised) Choi
matrix of the identity channel has norm `2`, so each `g = (2−1)/90 = 1/90`. -/
theorem C4_Drhp_identity_nonzero :
    compute_Drhp 2 [(1 : Matrix (Fin (2 * 2)) (Fin (2 * 2)) ℂ), 1, 1] 90 = 1 / 31 ∧
    (1 / 31 : ℝ) ≠ 0 := by
  constructor
  · rw [compute_Drhp]
    simp only [List.map_cons, List.map_nil, choi_id_eq, npNormOne_choi_id,
      List.sum_cons, List.sum_nil]
    norm_num
  · norm_num

/-! Claims C5–C7: `trace_norm`, the strict variant, the Kraus-map machinery and
the first non-Markovianity measure. -/

/-- `trace_norm` (`non_markovianity_test.py`, lines 5–17, the active relaxed
variant): `np.trace(sqrtm(matrix @ matrix.conj().T))`. `M·Mᴴ` is positive
semidefinite, and on such input `scipy.linalg.sqrtm` yields its unique
positive-semidefinite square root. -/
noncomputable def trace_norm (M : Matrix (Fin d) (Fin d) ℂ) : ℂ :=
  (posSemidef_self_mul_conjTranspose M).sqrt.trace

/-- Diagonalizability over ℂ (the `Matrix(temp).is_diagonalizable()` check of the
strict variant): similarity to a diagonal matrix. -/
def IsDiagonalizable (A : Matrix (Fin d) (Fin d) ℂ) : Prop :=
  ∃ P Dg : Matrix (Fin d) (Fin d) ℂ, IsUnit P.det ∧ (∀ i j, i ≠ j → Dg i j = 0) ∧
    A = P * Dg * P⁻¹

/-- Modelled from the spec: the strict variant of `trace_norm`. It exists in the
repository only as the commented-out lines 18–21 of `non_markovianity_test.py`
(per the spec, a second near-identical module enforcing the precondition is not
under `src/`): it checks that `M·Mᴴ` is diagonalizable and raises
`Exception("input matrix A such that A.A^\x7bdagger\x7d is not diagonalizable")`
instead of returning a value when the check fails. -/
noncomputable def trace_norm_strict (M : Matrix (Fin d) (Fin d) ℂ) : Except String ℂ :=
  letI := Classical.propDecidable (IsDiagonalizable (M * Mᴴ))
  if IsDiagonalizable (M * Mᴴ) then Except.ok (trace_norm M)
  else Except.error "input matrix A such that A.A^\x7bdagger\x7d is not diagonalizable"

/-- C5: the strict `trace_norm` raises the descriptive domain error naming the
violated precondition exactly on those inputs whose `M·Mᴴ` is not
diagonalizable; in particular it never returns an (approximate) value there. -/
theorem C5_trace_norm_strict_error (M : Matrix (Fin d) (Fin d) ℂ) :
    trace_norm_strict M =
      Except.error "input matrix A such that A.A^\x7bdagger\x7d is not diagonalizable" ↔
    ¬ IsDiagonalizable (M * Mᴴ) := by
  rw [trace_norm_strict]
  by_cases h : IsDiagonalizable (M * Mᴴ)
  · simp [h]
  · simp [h]

/-- `get_maximally_entagled_density_matrix` (`non_markovianity_test.py`, lines
23–35): the outer product `np.outer(v.conj(), v)` of the normalised all-ones
vector `v = [1/√dim, …, 1/√dim]` with itself. -/
noncomputable def get_maximally_entagled_density_matrix (nq : ℕ) :
    Matrix (Fin (2 ^ nq)) (Fin (2 ^ nq)) ℂ :=
  let max_entangled_state : Fin (2 ^ nq) → ℂ := fun _ => 1 / Real.sqrt (2 ^ nq)
  vecMulVec (fun i => star (max_entangled_state i)) max_entangled_state

/-- `np.kron` for square matrices:
`np.kron(A, B)[i, j] = A[i / n, j / n] * B[i % n, j % n]` for `B` of size `n×n`. -/
def npKron (A : Matrix (Fin m) (Fin m) ℂ) (B : Matrix (Fin n) (Fin n) ℂ) :
    Matrix (Fin (m * n)) (Fin (m * n)) ℂ :=
  Matrix.of fun i j =>
    have hn : 0 < n := by
      rcases Nat.eq_zero_or_pos n with h | h
      · exact absurd i.isLt (by simp [h])
      · exact h
    A ⟨i.val / n, (Nat.div_lt_iff_lt_mul hn).mpr i.isLt⟩
        ⟨j.val / n, (Nat.div_lt_iff_lt_mul hn).mpr j.isLt⟩ *
      B ⟨i.val % n, Nat.mod_lt _ hn⟩ ⟨j.val % n, Nat.mod_lt _ hn⟩

/-- `apply_kraus_map` (`non_markovianity_test.py`, lines 37–42): starts from the
zero matrix and accumulates `op @ rho @ op†` over the operators. -/
noncomputable def apply_kraus_map (operators : List (Matrix (Fin d) (Fin d) ℂ))
    (rho : Matrix (Fin d) (Fin d) ℂ) : Matrix (Fin d) (Fin d) ℂ :=
  operators.foldl (fun result op => result + op * rho * opᴴ) 0

/-- `get_extended_choi_matrix_operators` (`non_markovianity_test.py`, lines
44–55): `[np.kron(np.eye(2), op) for op in kraus_map]`. -/
def get_extended_choi_matrix_operators (kraus_map : List (Matrix (Fin n) (Fin n) ℂ)) :
    List (Matrix (Fin (2 * n)) (Fin (2 * n)) ℂ) :=
  kraus_map.map fun op => npKron (1 : Matrix (Fin 2) (Fin 2) ℂ) op

/-- Dimension cast along an equality of sizes (numpy needs no such cast; Lean's
indexed matrices do, to identify `2·2^q` with `2^(q+1)`). -/
def castMat (h : m = n) (A : Matrix (Fin m) (Fin m) ℂ) : Matrix (Fin n) (Fin n) ℂ :=
  Matrix.reindex (finCongr h) (finCongr h) A

set_option linter.unusedVariables false in
/-- `first_non_markovianity_measure` (`non_markovianity_test.py`, lines 59–89):
for each Kraus map in the list, extend it by `I₂ ⊗ ·`, apply it to the
maximally entangled state on `operating_qubits + 1` qubits, accumulate
`G += trace_norm(new_rho) - 1`, and return `G / (G + 1)`. The argument
`delta_t` is accepted (third positional argument of the Python function) but
never used. -/
noncomputable def first_non_markovianity_measure (operating_qubits : ℕ)
    (kraus_map_list : List (List (Matrix (Fin (2 ^ operating_qubits))
      (Fin (2 ^ operating_qubits)) ℂ)))
    (delta_t : ℝ) : ℂ :=
  let entagled_rho := get_maximally_entagled_density_matrix (operating_qubits + 1)
  let G : ℂ := kraus_map_list.foldl
    (fun G kraus_map =>
      let new_kraus_operators :=
        (get_extended_choi_matrix_operators kraus_map).map
          (castMat (by rw [pow_succ, Nat.mul_comm]))
      let new_rho := apply_kraus_map new_kraus_operators entagled_rho
      G + (trace_norm new_rho - 1)) 0
  G / (G + 1)

/-- C6: `first_non_markovianity_measure` returns the same value for any two
`delta_t` arguments — the accumulated sum `G` is never multiplied by `delta_t`,
so the result does not depend on it. -/
theorem C6_delta_t_independent (operating_qubits : ℕ)
    (kraus_map_list : List (List (Matrix (Fin (2 ^ operating_qubits))
      (Fin (2 ^ operating_qubits)) ℂ)))
    (dt dt' : ℝ) :
    first_non_markovianity_measure operating_qubits kraus_map_list dt =
      first_non_markovianity_measure operating_qubits kraus_map_list dt' := rfl

lemma apply_kraus_map_eq_sum (ops : List (Matrix (Fin d) (Fin d) ℂ))
    (rho : Matrix (Fin d) (Fin d) ℂ) :
    apply_kraus_map ops rho = (ops.map fun op => op * rho * opᴴ).sum := by
  have h : ∀ (l : List (Matrix (Fin d) (Fin d) ℂ)) (a : Matrix (Fin d) (Fin d) ℂ),
      l.foldl (fun result op => result + op * rho * opᴴ) a =
        a + (l.map fun op => op * rho * opᴴ).sum := by
    intro l
    induction l with
    | nil => intro a; simp
    | cons x xs ih => intro a; simp [ih, add_assoc]
  simpa using h ops 0

/-- C7: for every Kraus operator set satisfying the completeness relation
`Σ Kᵢᴴ Kᵢ = 1` and every matrix `ρ`, `apply_kraus_map` preserves the trace. -/
theorem C7_apply_kraus_map_trace (ops : List (Matrix (Fin d) (Fin d) ℂ))
    (rho : Matrix (Fin d) (Fin d) ℂ)
    (hops : (ops.map fun K => Kᴴ * K).sum = 1) :
    (apply_kraus_map ops rho).trace = rho.trace := by
  have key : (ops.map fun K => Kᴴ * K * rho).sum = rho := by
    rw [List.sum_map_mul_right, hops, one_mul]
  calc (apply_kraus_map ops rho).trace
      = ((ops.map fun K => K * rho * Kᴴ).map Matrix.trace).sum := by
        rw [apply_kraus_map_eq_sum, trace_list_sum]
    _ = ((ops.map fun K => Kᴴ * K * rho).map Matrix.trace).sum := by
        rw [List.map_map, List.map_map]
        refine congrArg List.sum (List.map_congr_left fun K _ => ?_)
        simp only [Function.comp_apply]
        exact trace_mul_cycle K rho Kᴴ
    _ = (ops.map fun K => Kᴴ * K * rho).sum.trace := (trace_list_sum _).symm
    _ = rho.trace := by rw [key]

/-- C7 witness: the trace-preservation theorem applied to the single-operator
Kraus set `[1]` and a concrete state. -/
theorem C7_apply_kraus_map_trace_witness :
    ((([1] : List (Matrix (Fin 2) (Fin 2) ℂ)).map fun K => Kᴴ * K).sum = 1) ∧
    (apply_kraus_map ([1] : List (Matrix (Fin 2) (Fin 2) ℂ)) !![1, 2; 3, 4]).trace =
      (!![1, 2; 3, 4] : Matrix (Fin 2) (Fin 2) ℂ).trace :=
  ⟨by simp, C7_apply_kraus_map_trace [1] !![1, 2; 3, 4] (by simp)⟩

/-! Claims C8 and C10: `second_non_markovian_helper_function`. A state pair
`[p1, p2]` at one timestep is modelled as a pair of matrices; `basis_states`
is a list of such pairs, and `states` a list of bases. -/

/-- The Python statement `basis_values[basis] += x`: reads and writes index
`basis`, raising `IndexError: list index out of range` when it is out of
bounds. -/
def pyAddAt (l : List ℝ) (i : ℕ) (x : ℝ) : Except String (List ℝ) :=
  if h : i < l.length then Except.ok (l.set i (l.get ⟨i, h⟩ + x))
  else Except.error "list index out of range"

/-- The inner loop of `second_non_markovian_helper_function`
(`non_markovianity_test.py`, lines 110–115): `for i in range(0, n-1)`, compute
the trace distances of the state pairs at `i` and `i+1` and accumulate
`max(sigma, 0)` into `basis_values[basis]`. Iteration over consecutive index
pairs is modelled by structural recursion over the list of pairs. -/
noncomputable def basisLoop (basis : ℕ) :
    List ℝ → List (Matrix (Fin m) (Fin n) ℂ × Matrix (Fin m) (Fin n) ℂ) →
      Except String (List ℝ)
  | bv, [] => Except.ok bv
  | bv, [_] => Except.ok bv
  | bv, p :: q :: rest =>
      (pyAddAt bv basis
        (max (trace_distance q.1 q.2 - trace_distance p.1 p.2) 0)).bind
        fun bv' => basisLoop basis bv' (q :: rest)

/-- The outer loop `for basis, basis_states in enumerate(states)`
(`non_markovianity_test.py`, line 109). -/
noncomputable def basesLoop :
    ℕ → List ℝ → List (List (Matrix (Fin m) (Fin n) ℂ × Matrix (Fin m) (Fin n) ℂ)) →
      Except String (List ℝ)
  | _, bv, [] => Except.ok bv
  | basis, bv, bs :: rest =>
      (basisLoop basis bv bs).bind fun bv' => basesLoop (basis + 1) bv' rest

/-- `second_non_markovian_helper_function` (`non_markovianity_test.py`, lines
99–116): `basis_values = [0, 0, 0]`, the double loop above, then
`max(basis_values)` (Python's `max` raises on an empty list; unreachable here
since `basis_values` always has length 3). -/
noncomputable def second_non_markovian_helper_function
    (states : List (List (Matrix (Fin m) (Fin n) ℂ × Matrix (Fin m) (Fin n) ℂ))) :
    Except String ℝ :=
  (basesLoop 0 [0, 0, 0] states).bind fun bv =>
    match bv.max? with
    | some v => Except.ok v
    | none => Except.error "max of empty sequence"

/-- The per-basis total as claim C8 words it: the sum, over consecutive time
indices `(i, i+1)`, of `max(distance(i+1) − distance(i), 0)`. -/
noncomputable def claimedBasisSum
    (bs : List (Matrix (Fin m) (Fin n) ℂ × Matrix (Fin m) (Fin n) ℂ)) : ℝ :=
  ((List.range (bs.length - 1)).map fun i =>
    max (trace_distance (bs.getD (i + 1) (0, 0)).1 (bs.getD (i + 1) (0, 0)).2 -
      trace_distance (bs.getD i (0, 0)).1 (bs.getD i (0, 0)).2) 0).sum

lemma claimedBasisSum_nil :
    claimedBasisSum ([] : List (Matrix (Fin m) (Fin n) ℂ × Matrix (Fin m) (Fin n) ℂ)) = 0 := by
  simp [claimedBasisSum]

lemma claimedBasisSum_single (p : Matrix (Fin m) (Fin n) ℂ × Matrix (Fin m) (Fin n) ℂ) :
    claimedBasisSum [p] = 0 := by
  simp [claimedBasisSum]

lemma claimedBasisSum_cons (p q : Matrix (Fin m) (Fin n) ℂ × Matrix (Fin m) (Fin n) ℂ)
    (rest : List (Matrix (Fin m) (Fin n) ℂ × Matrix (Fin m) (Fin n) ℂ)) :
    claimedBasisSum (p :: q :: rest) =
      max (trace_distance q.1 q.2 - trace_distance p.1 p.2) 0 +
        claimedBasisSum (q :: rest) := by
  rw [claimedBasisSum, claimedBasisSum]
  simp only [List.length_cons, Nat.add_sub_cancel]
  rw [List.range_succ_eq_map, List.map_cons, List.sum_cons, List.map_map]
  congr 1

lemma claimedBasisSum_nonneg
    (bs : List (Matrix (Fin m) (Fin n) ℂ × Matrix (Fin m) (Fin n) ℂ)) :
    0 ≤ claimedBasisSum bs := by
  refine List.sum_nonneg fun x hx => ?_
  obtain ⟨i, _, rfl⟩ := List.mem_map.mp hx
  exact le_max_right _ _

lemma set_getD_self : ∀ (l : List ℝ) (i : ℕ), i < l.length → l.set i (l.getD i 0) = l := by
  intro l
  induction l with
  | nil => intro i h; simp at h
  | cons x xs ih =>
      intro i h
      cases i with
      | zero => simp
      | succ k =>
          simp only [List.getD_cons_succ, List.set_cons_succ]
          rw [ih k (by simpa using h)]

lemma basisLoop_ok (basis : ℕ) :
    ∀ (bs : List (Matrix (Fin m) (Fin n) ℂ × Matrix (Fin m) (Fin n) ℂ))
      (bv : List ℝ), basis < bv.length →
      basisLoop basis bv bs = Except.ok (bv.set basis (bv.getD basis 0 + claimedBasisSum bs))
  | [], bv, hb => by
      rw [basisLoop, claimedBasisSum_nil, add_zero, set_getD_self bv basis hb]
  | [p], bv, hb => by
      rw [basisLoop, claimedBasisSum_single, add_zero, set_getD_self bv basis hb]
  | p :: q :: rest, bv, hb => by
      rw [basisLoop, pyAddAt, dif_pos hb]
      have hb' : basis < (bv.set basis (bv.get ⟨basis, hb⟩ +
          max (trace_distance q.1 q.2 - trace_distance p.1 p.2) 0)).length := by
        simpa using hb
      rw [show ∀ (x : List ℝ) (f : List ℝ → Except String (List ℝ)),
            (Except.ok x).bind f = f x from fun _ _ => rfl]
      rw [basisLoop_ok basis (q :: rest) _ hb']
      rw [List.set_set]
      rw [claimedBasisSum_cons]
      congr 1
      rw [List.getD_eq_getElem?_getD, List.getElem?_set_self hb, Option.getD_some]
      have hget : bv.getD basis 0 = bv.get ⟨basis, hb⟩ := by
        rw [List.getD_eq_getElem?_getD, List.getElem?_eq_getElem hb, Option.getD_some]
        rfl
      rw [hget, add_assoc]

lemma basesLoop_one (b0 : List (Matrix (Fin m) (Fin n) ℂ × Matrix (Fin m) (Fin n) ℂ)) :
    basesLoop 0 [0, 0, 0] [b0] = Except.ok [claimedBasisSum b0, 0, 0] := by
  rw [basesLoop, basisLoop_ok 0 b0 [0, 0, 0] (by simp)]
  simp only [List.getD_cons_zero, zero_add, List.set_cons_zero]
  rw [show ∀ (x : List ℝ) (f : List ℝ → Except String (List ℝ)),
        (Except.ok x).bind f = f x from fun _ _ => rfl]
  rw [basesLoop]

lemma basesLoop_two (b0 b1 : List (Matrix (Fin m) (Fin n) ℂ × Matrix (Fin m) (Fin n) ℂ)) :
    basesLoop 0 [0, 0, 0] [b0, b1] =
      Except.ok [claimedBasisSum b0, claimedBasisSum b1, 0] := by
  rw [basesLoop, basisLoop_ok 0 b0 [0, 0, 0] (by simp)]
  simp only [List.getD_cons_zero, zero_add, List.set_cons_zero]
  rw [show ∀ (x : List ℝ) (f : List ℝ → Except String (List ℝ)),
        (Except.ok x).bind f = f x from fun _ _ => rfl]
  rw [basesLoop, basisLoop_ok 1 b1 _ (by simp)]
  simp only [List.getD_cons_succ, List.getD_cons_zero, zero_add, List.set_cons_succ,
    List.set_cons_zero]
  rw [show ∀ (x : List ℝ) (f : List ℝ → Except String (List ℝ)),
        (Except.ok x).bind f = f x from fun _ _ => rfl]
  rw [basesLoop]

lemma basesLoop_three (b0 b1 b2 : List (Matrix (Fin m) (Fin n) ℂ × Matrix (Fin m) (Fin n) ℂ)) :
    basesLoop 0 [0, 0, 0] [b0, b1, b2] =
      Except.ok [claimedBasisSum b0, claimedBasisSum b1, claimedBasisSum b2] := by
  rw [basesLoop, basisLoop_ok 0 b0 [0, 0, 0] (by simp)]
  simp only [List.getD_cons_zero, zero_add, List.set_cons_zero]
  rw [show ∀ (x : List ℝ) (f : List ℝ → Except String (List ℝ)),
        (Except.ok x).bind f = f x from fun _ _ => rfl]
  rw [basesLoop, basisLoop_ok 1 b1 _ (by simp)]
  simp only [List.getD_cons_succ, List.getD_cons_zero, zero_add, List.set_cons_succ,
    List.set_cons_zero]
  rw [show ∀ (x : List ℝ) (f : List ℝ → Except String (List ℝ)),
        (Except.ok x).bind f = f x from fun _ _ => rfl]
  rw [basesLoop, basisLoop_ok 2 b2 _ (by simp)]
  simp only [List.getD_cons_succ, List.getD_cons_zero, zero_add, List.set_cons_succ,
    List.set_cons_zero]
  rw [show ∀ (x : List ℝ) (f : List ℝ → Except String (List ℝ)),
        (Except.ok x).bind f = f x from fun _ _ => rfl]
  rw [basesLoop]

/-- C8: on an input of exactly 3 basis sequences, the helper returns the
maximum over the 3 bases of the per-basis sum, over consecutive time indices
`(i, i+1)`, of `max(distance(i+1) − distance(i), 0)`. In particular the result
is `0` when every basis's distances are non-increasing, and at least the
increase of any single basis otherwise. -/
theorem C8_second_helper (b0 b1 b2 :
    List (Matrix (Fin m) (Fin n) ℂ × Matrix (Fin m) (Fin n) ℂ)) :
    second_non_markovian_helper_function [b0, b1, b2] =
      Except.ok (max (max (claimedBasisSum b0) (claimedBasisSum b1))
        (claimedBasisSum b2)) := by
  rw [second_non_markovian_helper_function, basesLoop_three]
  rfl

/-- C10 (amended): for every input with at most 3 bases (of any basis sequence
lengths, including bases with fewer than two timesteps), the helper returns a
value, and that value is at least `0`. -/
theorem C10_second_helper_nonneg
    (states : List (List (Matrix (Fin m) (Fin n) ℂ × Matrix (Fin m) (Fin n) ℂ)))
    (hlen : states.length ≤ 3) :
    ∃ v, second_non_markovian_helper_function states = Except.ok v ∧ 0 ≤ v := by
  rcases states with _ | ⟨b0, _ | ⟨b1, _ | ⟨b2, _ | ⟨b3, rest⟩⟩⟩⟩
  · refine ⟨0, ?_, le_refl 0⟩
    rw [second_non_markovian_helper_function, basesLoop]
    show Except.ok (max (max (0 : ℝ) 0) 0) = Except.ok 0
    norm_num
  · refine ⟨max (max (claimedBasisSum b0) 0) 0, ?_, le_max_right _ _⟩
    rw [second_non_markovian_helper_function, basesLoop_one]
    rfl
  · refine ⟨max (max (claimedBasisSum b0) (claimedBasisSum b1)) 0, ?_, le_max_right _ _⟩
    rw [second_non_markovian_helper_function, basesLoop_two]
    rfl
  · refine ⟨max (max (claimedBasisSum b0) (claimedBasisSum b1)) (claimedBasisSum b2), ?_,
      le_trans (claimedBasisSum_nonneg b2) (le_max_right _ _)⟩
    rw [second_non_markovian_helper_function, basesLoop_three]
    rfl
  · simp at hlen

/-- C10 witness: the amended theorem applied to the empty input. -/
theorem C10_second_helper_nonneg_witness :
    (([] : List (List (Matrix (Fin 1) (Fin 1) ℂ × Matrix (Fin 1) (Fin 1) ℂ))).length ≤ 3) ∧
    ∃ v, second_non_markovian_helper_function
        ([] : List (List (Matrix (Fin 1) (Fin 1) ℂ × Matrix (Fin 1) (Fin 1) ℂ))) =
        Except.ok v ∧ 0 ≤ v :=
  ⟨by simp, C10_second_helper_nonneg [] (by simp)⟩

/-- C10 counterexample: on an input with 4 bases whose fourth basis has two
timesteps, the helper raises `IndexError` (`basis_values` has only 3 slots), so
it does not return a value at all — the claim fails for inputs with more than 3
bases. -/
theorem C10_counterexample :
    second_non_markovian_helper_function
        [[], [], [],
          [((0 : Matrix (Fin 1) (Fin 1) ℂ), (0 : Matrix (Fin 1) (Fin 1) ℂ)), (0, 0)]] =
      Except.error "list index out of range" ∧
    ¬ ∃ v : ℝ, second_non_markovian_helper_function
        [[], [], [],
          [((0 : Matrix (Fin 1) (Fin 1) ℂ), (0 : Matrix (Fin 1) (Fin 1) ℂ)), (0, 0)]] =
        Except.ok v ∧ 0 ≤ v := by
  have herr : second_non_markovian_helper_function
      [[], [], [],
        [((0 : Matrix (Fin 1) (Fin 1) ℂ), (0 : Matrix (Fin 1) (Fin 1) ℂ)), (0, 0)]] =
      Except.error "list index out of range" := by
    rw [second_non_markovian_helper_function]
    rw [basesLoop, basisLoop]
    rw [show ∀ (x : List ℝ) (f : List ℝ → Except String (List ℝ)),
          (Except.ok x).bind f = f x from fun _ _ => rfl]
    rw [basesLoop, basisLoop]
    rw [show ∀ (x : List ℝ) (f : List ℝ → Except String (List ℝ)),
          (Except.ok x).bind f = f x from fun _ _ => rfl]
    rw [basesLoop, basisLoop]
    rw [show ∀ (x : List ℝ) (f : List ℝ → Except String (List ℝ)),
          (Except.ok x).bind f = f x from fun _ _ => rfl]
    rw [basesLoop, basisLoop, pyAddAt]
    rfl
  refine ⟨herr, ?_⟩
  rintro ⟨v, hv, _⟩
  rw [herr] at hv
  exact absurd hv (by simp)

end NonMarkov
